import Mathlib

/-!
Verification of the samplerust core (src/main.rs): an `AudioBuffer` holding a
decoded, normalized sample sequence together with a playhead, and the output
callback that fills each position of a hardware block with the sum of one
`loop_next` call per owned track.

Samples are modelled as rationals: every value the program manipulates is of
the form `raw / 32768` with `raw` a 16-bit integer, which is exactly
representable in `f32`, and the claims under scrutiny do not depend on
floating-point rounding.  A Rust panic (out-of-bounds index, modulo by zero,
`unwrap` on an error) is modelled by `Option.none`.
-/

/-- A decoded track: `buffer` is the normalized sample sequence, `playhead`
the current read position.  Mirrors `struct AudioBuffer` in src/main.rs. -/
structure AudioBuffer where
  buffer : List ℚ
  playhead : ℕ
  deriving DecidableEq, Repr

/-- Abstract model of the result of `hound::WavReader::open` plus its sample
iterator: `openOk` is whether the file opened (header readable), `reads` has
one entry per 16-bit PCM sample slot of the file, `none` marking a slot whose
read fails (truncated data, unsupported encoding).  The file model is mono,
so one sample slot is one sample frame. -/
structure WavFile where
  openOk : Bool
  reads : List (Option ℤ)
  deriving DecidableEq, Repr

/-- Number of PCM sample frames of the (mono) modelled file. -/
def WavFile.numFrames (f : WavFile) : ℕ := f.reads.length

/-- `x as f32 / 32768.` from `AudioBuffer::new`. -/
def normalizeSample (x : ℤ) : ℚ := (x : ℚ) / 32768

/-- `AudioBuffer::new`: `WavReader::open(filename).unwrap()` (a failed open
panics, modelled `none`), then `into_samples::<i16>().flatten()` — which
keeps exactly the successful reads, dropping failed ones — mapped through
the normalization, with the playhead at 0. -/
def AudioBuffer.new (f : WavFile) : Option AudioBuffer :=
  if f.openOk then some ⟨(f.reads.filterMap id).map normalizeSample, 0⟩ else none

/-- `AudioBuffer::next`: if the playhead is at or past the end, return `0.`
and leave the state alone; otherwise return the sample under the playhead
and advance it by one. -/
def AudioBuffer.next (a : AudioBuffer) : ℚ × AudioBuffer :=
  if a.buffer.length ≤ a.playhead then (0, a)
  else (a.buffer.getD a.playhead 0, ⟨a.buffer, a.playhead + 1⟩)

/-- `AudioBuffer::loop_next`: index `buffer[playhead]` (a Rust panic — hence
`none` — when the playhead is out of bounds), then set
`playhead = (playhead + 1) % buffer.len()`.  When the index succeeds the
length is positive, so the modulo divisor is never zero. -/
def AudioBuffer.loop_next (a : AudioBuffer) : Option (ℚ × AudioBuffer) :=
  if a.playhead < a.buffer.length then
    some (a.buffer.getD a.playhead 0, ⟨a.buffer, (a.playhead + 1) % a.buffer.length⟩)
  else none

/-- `AudioBuffer::seek`: stores the position into the playhead, with no
bounds check of any kind. -/
def AudioBuffer.seek (a : AudioBuffer) (position : ℕ) : AudioBuffer :=
  ⟨a.buffer, position⟩

/-- `k` successive `next` calls: the list of returned samples and the final
state. -/
def nextN (a : AudioBuffer) : ℕ → List ℚ × AudioBuffer
  | 0 => ([], a)
  | k + 1 =>
    let (x, a1) := a.next
    let (xs, a2) := nextN a1 k
    (x :: xs, a2)

/-- `k` successive `loop_next` calls: the returned samples and the final
state, `none` as soon as one call panics. -/
def loopNextN (a : AudioBuffer) : ℕ → Option (List ℚ × AudioBuffer)
  | 0 => some ([], a)
  | k + 1 => do
    let (x, a1) ← a.loop_next
    let (xs, a2) ← loopNextN a1 k
    some (x :: xs, a2)

/-- One output position of the callback: `audios.iter_mut().map(|b| b.loop_next()).sum()`
— each track yields one sample (in order, mutating its playhead) and the
samples are summed; the empty track set sums to `0.`. -/
def mixOnce : List AudioBuffer → Option (ℚ × List AudioBuffer)
  | [] => some (0, [])
  | a :: rest => do
    let (x, a1) ← a.loop_next
    let (s, rest1) ← mixOnce rest
    some (x + s, a1 :: rest1)

/-- The `for sample in data.iter_mut()` loop of the callback, over a block
of `n` positions: the written block and the final track states. -/
def fill (audios : List AudioBuffer) : ℕ → Option (List ℚ × List AudioBuffer)
  | 0 => some ([], audios)
  | n + 1 => do
    let (x, audios1) ← mixOnce audios
    let (xs, audios2) ← fill audios1 n
    some (x :: xs, audios2)

/-- `output_data_fn`: the callback closure.  Its second Rust parameter
(`&cpal::OutputCallbackInfo`, carrying the driver timestamps) is ignored,
modelled by an unused `info` argument; the block is identified by its
length. -/
def output_data_fn (audios : List AudioBuffer) (_info : ℕ) (blockLen : ℕ) :
    Option (List ℚ × List AudioBuffer) :=
  fill audios blockLen

/-- A whole playback session: the callback invoked once per listed call,
each call carrying its `OutputCallbackInfo` stand-in and its block length;
the produced blocks are concatenated. -/
def fillCalls (audios : List AudioBuffer) : List (ℕ × ℕ) → Option (List ℚ × List AudioBuffer)
  | [] => some ([], audios)
  | (info, n) :: rest => do
    let (out, audios1) ← output_data_fn audios info n
    let (outs, audios2) ← fillCalls audios1 rest
    some (out ++ outs, audios2)

/-- One `loop_next` per track, componentwise: the per-track samples (one per
owned track, in order) and the advanced states. -/
def stepAll : List AudioBuffer → Option (List ℚ × List AudioBuffer)
  | [] => some ([], [])
  | a :: rest => do
    let (x, a1) ← a.loop_next
    let (xs, rest1) ← stepAll rest
    some (x :: xs, a1 :: rest1)

/-- The track states seen by the callback when it produces position `i` of
a block: `i` applications of `mixOnce`, keeping only the states. -/
def stateAt (audios : List AudioBuffer) : ℕ → Option (List AudioBuffer)
  | 0 => some audios
  | i + 1 => do
    let (_, audios1) ← mixOnce audios
    stateAt audios1 i

/-! ## Basic lemmas on single steps -/

lemma next_past_end {a : AudioBuffer} (h : a.buffer.length ≤ a.playhead) :
    a.next = (0, a) := by
  simp [AudioBuffer.next, h]

lemma next_in_bounds {a : AudioBuffer} (h : a.playhead < a.buffer.length) :
    a.next = (a.buffer.getD a.playhead 0, ⟨a.buffer, a.playhead + 1⟩) := by
  simp [AudioBuffer.next, Nat.not_le.mpr h]

lemma nextN_past_end {a : AudioBuffer} (h : a.buffer.length ≤ a.playhead) :
    ∀ k, nextN a k = (List.replicate k 0, a) := by
  intro k
  induction k with
  | zero => simp [nextN]
  | succ k ih => simp [nextN, next_past_end h, ih, List.replicate_succ]

lemma loop_next_single (s : ℚ) :
    AudioBuffer.loop_next ⟨[s], 0⟩ = some (s, ⟨[s], 0⟩) := by
  simp [AudioBuffer.loop_next]

lemma loopNextN_single (s : ℚ) :
    ∀ k, loopNextN ⟨[s], 0⟩ k = some (List.replicate k s, ⟨[s], 0⟩) := by
  intro k
  induction k with
  | zero => simp [loopNextN]
  | succ k ih => simp [loopNextN, loop_next_single, ih, List.replicate_succ]

/-! ## Claim theorems: bounded policy, seek, length-1 looping -/

/-- C2.  Bounded-policy track of length `L`: while `playhead < L`, `next`
returns `sequence[playhead]` and increments the playhead; once
`playhead = L`, every run of `k` further `next` calls returns `0.0` each
time and leaves the playhead at `L` (it never increments past `L`). -/
theorem bounded_next_spec (a : AudioBuffer) :
    (a.playhead < a.buffer.length →
      a.next = (a.buffer.getD a.playhead 0, ⟨a.buffer, a.playhead + 1⟩)) ∧
    (a.playhead = a.buffer.length →
      ∀ k, nextN a k = (List.replicate k 0, a)) := by
  constructor
  · intro h
    exact next_in_bounds h
  · intro h k
    exact nextN_past_end (le_of_eq h.symm) k

/-- Witness for C2 at concrete tracks: a track `[3, 7]` at playhead 0
yields `3` and advances; at playhead 2 (= length) five further calls all
yield `0.0` and leave the playhead at 2. -/
theorem bounded_next_spec_witness :
    AudioBuffer.next ⟨[3, 7], 0⟩ = (3, ⟨[3, 7], 1⟩) ∧
    nextN ⟨[3, 7], 2⟩ 5 = ([0, 0, 0, 0, 0], ⟨[3, 7], 2⟩) :=
  ⟨(bounded_next_spec ⟨[3, 7], 0⟩).1 (by decide),
   (bounded_next_spec ⟨[3, 7], 2⟩).2 (by decide) 5⟩

/-- C10.  A bounded-policy `next` with the playhead at or past the end —
including strictly past it, as an unchecked `seek` can leave it — returns
`0.0` without indexing the sequence and leaves the whole state (hence the
playhead) unchanged. -/
theorem next_safe_past_end (a : AudioBuffer) (h : a.buffer.length ≤ a.playhead) :
    a.next = (0, a) :=
  next_past_end h

/-- Witness for C10: a length-2 track whose playhead was pushed to 7. -/
theorem next_safe_past_end_witness :
    ([(1 : ℚ), 2] : List ℚ).length ≤ 7 ∧
    AudioBuffer.next ⟨[1, 2], 7⟩ = (0, ⟨[1, 2], 7⟩) :=
  ⟨by decide, next_safe_past_end ⟨[1, 2], 7⟩ (by decide)⟩

/-- C7 (code bug evidence).  `seek` stores its argument into the playhead
unchecked: on a length-2 looping track, `seek 5` leaves the playhead at 5,
violating both `playhead < length` and `playhead ≤ length`, and the next
`loop_next` call indexes out of bounds (a Rust panic, modelled `none`). -/
theorem seek_unchecked_out_of_range :
    AudioBuffer.seek ⟨[1, 2], 0⟩ 5 = ⟨[1, 2], 5⟩ ∧
    ¬ (AudioBuffer.seek ⟨[1, 2], 0⟩ 5).playhead ≤ ([(1 : ℚ), 2] : List ℚ).length ∧
    AudioBuffer.loop_next (AudioBuffer.seek ⟨[1, 2], 0⟩ 5) = none := by
  refine ⟨rfl, by decide, ?_⟩
  simp [AudioBuffer.seek, AudioBuffer.loop_next]

/-- C9.  A looping track over a length-1 sequence: every `loop_next` call
succeeds (no panic: the index is in bounds and the modulo divisor is the
length 1, never zero), returns the single sample, and leaves the playhead
at 0 — for any number of calls `k`. -/
theorem loop_single_sample (s : ℚ) (k : ℕ) :
    AudioBuffer.loop_next ⟨[s], 0⟩ = some (s, ⟨[s], 0⟩) ∧
    loopNextN ⟨[s], 0⟩ k = some (List.replicate k s, ⟨[s], 0⟩) :=
  ⟨loop_next_single s, loopNextN_single s k⟩


/-! ## Looping periodicity -/

lemma loopNextN_succ (a : AudioBuffer) (k : ℕ) :
    loopNextN a (k + 1) =
      (a.loop_next).bind (fun p =>
        (loopNextN p.2 k).map (fun q => (p.1 :: q.1, q.2))) := by
  cases h : a.loop_next with
  | none => simp [loopNextN, h]
  | some p =>
    obtain ⟨x, a1⟩ := p
    cases h2 : loopNextN a1 k with
    | none => simp [loopNextN, h, h2]
    | some q => simp [loopNextN, h, h2]

lemma loopNextN_add (m : ℕ) :
    ∀ (a : AudioBuffer) (n : ℕ),
      loopNextN a (m + n) =
        (loopNextN a m).bind (fun p =>
          (loopNextN p.2 n).map (fun q => (p.1 ++ q.1, q.2))) := by
  induction m with
  | zero =>
    intro a n
    cases h : loopNextN a n with
    | none => simp [loopNextN, h]
    | some p => simp [loopNextN, h]
  | succ m ih =>
    intro a n
    rw [Nat.succ_add, loopNextN_succ, loopNextN_succ]
    cases h : a.loop_next with
    | none => simp
    | some p =>
      obtain ⟨x, a1⟩ := p
      simp only [Option.some_bind, ih a1 n]
      cases h2 : loopNextN a1 m with
      | none => simp
      | some q =>
        obtain ⟨xs, a2⟩ := q
        simp [Function.comp_def]

lemma loopNextN_to_end (buf : List ℚ) :
    ∀ (n p : ℕ), p + n = buf.length → 0 < n →
      loopNextN ⟨buf, p⟩ n = some (buf.drop p, ⟨buf, 0⟩) := by
  intro n
  induction n with
  | zero => intro p _ h; exact absurd h (by simp)
  | succ k ih =>
    intro p hpn _
    have hp : p < buf.length := by omega
    have hdrop : buf.drop p = buf.getD p 0 :: buf.drop (p + 1) := by
      rw [List.drop_eq_getElem_cons hp, List.getD_eq_getElem _ _ hp]
    have hln : AudioBuffer.loop_next ⟨buf, p⟩ =
        some (buf.getD p 0, ⟨buf, (p + 1) % buf.length⟩) := by
      simp [AudioBuffer.loop_next, hp]
    cases k with
    | zero =>
      have hp1 : p + 1 = buf.length := by omega
      rw [loopNextN_succ, hln]
      have hdropnil : buf.drop (p + 1) = [] :=
        List.drop_eq_nil_of_le (by omega)
      simp [loopNextN, hp1, Nat.mod_self, hdrop, hdropnil]
    | succ k' =>
      have hmod : (p + 1) % buf.length = p + 1 := Nat.mod_eq_of_lt (by omega)
      rw [loopNextN_succ, hln]
      simp [hmod, ih (p + 1) (by omega) (by omega), hdrop]

lemma loopNextN_cycle {a : AudioBuffer} (h0 : a.playhead = 0)
    (hL : 0 < a.buffer.length) :
    loopNextN a a.buffer.length = some (a.buffer, a) := by
  obtain ⟨buf, p⟩ := a
  simp only at h0 hL
  subst h0
  simpa using loopNextN_to_end buf buf.length 0 (by omega) hL

lemma loopNextN_cycles {a : AudioBuffer} (h0 : a.playhead = 0)
    (hL : 0 < a.buffer.length) (k : ℕ) :
    loopNextN a (k * a.buffer.length) =
      some ((List.replicate k a.buffer).flatten, a) := by
  induction k with
  | zero => simp [loopNextN]
  | succ k ih =>
    have hmul : (k + 1) * a.buffer.length = a.buffer.length + k * a.buffer.length := by
      ring
    rw [hmul, loopNextN_add, loopNextN_cycle h0 hL]
    simp [ih, List.replicate_succ]

/-- C3.  A looping track of length `L ≥ 1` at playhead 0: `L` calls of
`loop_next` return exactly the original sequence in order and bring the
state back to the start; and `k * L + r` calls produce `k` full copies of
the sequence followed by whatever `r` calls from the start produce, with
the same final state as those `r` calls (periodicity law). -/
theorem looping_periodicity (a : AudioBuffer) (h0 : a.playhead = 0)
    (hL : 1 ≤ a.buffer.length) :
    loopNextN a a.buffer.length = some (a.buffer, a) ∧
    ∀ k r, loopNextN a (k * a.buffer.length + r) =
      Option.map (fun p => ((List.replicate k a.buffer).flatten ++ p.1, p.2))
        (loopNextN a r) := by
  refine ⟨loopNextN_cycle h0 hL, ?_⟩
  intro k r
  rw [loopNextN_add, loopNextN_cycles h0 hL k]
  cases h : loopNextN a r with
  | none => simp [h]
  | some p => obtain ⟨ys, a2⟩ := p; simp [h]

/-- Witness for C3 on the track `[2, 5, 7]` at playhead 0: three calls
replay the sequence, and `2 * 3 + 1` calls are two full cycles followed by
one call. -/
theorem looping_periodicity_witness :
    loopNextN ⟨[2, 5, 7], 0⟩ 3 = some ([2, 5, 7], ⟨[2, 5, 7], 0⟩) ∧
    loopNextN ⟨[2, 5, 7], 0⟩ (2 * 3 + 1) =
      Option.map (fun p => ((List.replicate 2 [(2 : ℚ), 5, 7]).flatten ++ p.1, p.2))
        (loopNextN ⟨[2, 5, 7], 0⟩ 1) :=
  ⟨(looping_periodicity ⟨[2, 5, 7], 0⟩ rfl (by decide)).1,
   (looping_periodicity ⟨[2, 5, 7], 0⟩ rfl (by decide)).2 2 1⟩

/-! ## The output callback: per-position sums over all owned tracks -/

lemma mixOnce_cons (a : AudioBuffer) (rest : List AudioBuffer) :
    mixOnce (a :: rest) =
      (a.loop_next).bind (fun p =>
        (mixOnce rest).map (fun q => (p.1 + q.1, p.2 :: q.2))) := by
  cases h : a.loop_next with
  | none => simp [mixOnce, h]
  | some p =>
    cases h2 : mixOnce rest with
    | none => simp [mixOnce, h, h2]
    | some q => simp [mixOnce, h, h2]

lemma stepAll_cons (a : AudioBuffer) (rest : List AudioBuffer) :
    stepAll (a :: rest) =
      (a.loop_next).bind (fun p =>
        (stepAll rest).map (fun q => (p.1 :: q.1, p.2 :: q.2))) := by
  cases h : a.loop_next with
  | none => simp [stepAll, h]
  | some p =>
    cases h2 : stepAll rest with
    | none => simp [stepAll, h, h2]
    | some q => simp [stepAll, h, h2]

lemma mixOnce_eq_stepAll :
    ∀ audios : List AudioBuffer,
      mixOnce audios = (stepAll audios).map (fun p => (p.1.sum, p.2)) := by
  intro audios
  induction audios with
  | nil => simp [mixOnce, stepAll]
  | cons a rest ih =>
    rw [mixOnce_cons, stepAll_cons, ih]
    cases h : a.loop_next with
    | none => simp
    | some p =>
      cases h2 : stepAll rest with
      | none => simp
      | some q => simp

lemma stepAll_some_lengths :
    ∀ (audios : List AudioBuffer) (xs : List ℚ) (st : List AudioBuffer),
      stepAll audios = some (xs, st) →
      xs.length = audios.length ∧ st.length = audios.length := by
  intro audios
  induction audios with
  | nil => intro xs st h; simp [stepAll] at h; simp [h.1, h.2]
  | cons a rest ih =>
    intro xs st h
    rw [stepAll_cons] at h
    cases ha : a.loop_next with
    | none => simp [ha] at h
    | some p =>
      cases h2 : stepAll rest with
      | none => simp [ha, h2] at h
      | some q =>
        simp [ha, h2] at h
        obtain ⟨hxs, hst⟩ := h
        have := ih q.1 q.2 (by rw [h2])
        constructor
        · rw [← hxs]; simp [this.1]
        · rw [← hst]; simp [this.2]

lemma mixOnce_some_length {audios st : List AudioBuffer} {x : ℚ}
    (h : mixOnce audios = some (x, st)) : st.length = audios.length := by
  rw [mixOnce_eq_stepAll] at h
  cases h2 : stepAll audios with
  | none => rw [h2] at h; simp at h
  | some p =>
    rw [h2] at h
    simp at h
    rw [← h.2]
    exact (stepAll_some_lengths audios p.1 p.2 (by rw [h2])).2

lemma fill_succ (audios : List AudioBuffer) (n : ℕ) :
    fill audios (n + 1) =
      (mixOnce audios).bind (fun p =>
        (fill p.2 n).map (fun q => (p.1 :: q.1, q.2))) := by
  cases h : mixOnce audios with
  | none => simp [fill, h]
  | some p =>
    cases h2 : fill p.2 n with
    | none => simp [fill, h, h2]
    | some q => simp [fill, h, h2]

lemma stateAt_succ (audios : List AudioBuffer) (i : ℕ) :
    stateAt audios (i + 1) = (mixOnce audios).bind (fun p => stateAt p.2 i) := by
  cases h : mixOnce audios with
  | none => simp [stateAt, h]
  | some p => simp [stateAt, h]

lemma fill_nil : ∀ n : ℕ, fill [] n = some (List.replicate n 0, []) := by
  intro n
  induction n with
  | zero => simp [fill]
  | succ n ih =>
    rw [fill_succ]
    have : mixOnce [] = some (0, []) := rfl
    simp [this, ih, List.replicate_succ]

lemma fill_some_length :
    ∀ (n : ℕ) (audios : List AudioBuffer) (out : List ℚ) (fin : List AudioBuffer),
      fill audios n = some (out, fin) → out.length = n := by
  intro n
  induction n with
  | zero => intro audios out fin h; simp [fill] at h; simp [h.1]
  | succ n ih =>
    intro audios out fin h
    rw [fill_succ] at h
    cases hm : mixOnce audios with
    | none => simp [hm] at h
    | some p =>
      cases hf : fill p.2 n with
      | none => simp [hm, hf] at h
      | some q =>
        simp [hm, hf] at h
        rw [← h.1]
        simp [ih p.2 q.1 q.2 (by rw [hf])]

lemma fill_position :
    ∀ (i n : ℕ) (audios : List AudioBuffer) (out : List ℚ) (fin : List AudioBuffer),
      fill audios n = some (out, fin) → i < n →
      ∃ (st st2 : List AudioBuffer) (xs : List ℚ),
        stateAt audios i = some st ∧ st.length = audios.length ∧
        stepAll st = some (xs, st2) ∧ xs.length = st.length ∧
        out.getD i 0 = xs.sum := by
  intro i
  induction i with
  | zero =>
    intro n audios out fin h hi
    obtain ⟨m, rfl⟩ : ∃ m, n = m + 1 := ⟨n - 1, by omega⟩
    rw [fill_succ] at h
    cases hm : mixOnce audios with
    | none => simp [hm] at h
    | some p =>
      obtain ⟨x1, audios1⟩ := p
      cases hf : fill audios1 m with
      | none => simp [hm, hf] at h
      | some q =>
        simp [hm, hf] at h
        have hstep := hm
        rw [mixOnce_eq_stepAll] at hstep
        cases hs : stepAll audios with
        | none => rw [hs] at hstep; simp at hstep
        | some r =>
          rw [hs] at hstep
          simp at hstep
          refine ⟨audios, r.2, r.1, rfl, rfl, by rw [hs], ?_, ?_⟩
          · exact (stepAll_some_lengths audios r.1 r.2 (by rw [hs])).1
          · rw [← h.1]
            simp [hstep.1]
  | succ i ih =>
    intro n audios out fin h hi
    obtain ⟨m, rfl⟩ : ∃ m, n = m + 1 := ⟨n - 1, by omega⟩
    rw [fill_succ] at h
    cases hm : mixOnce audios with
    | none => simp [hm] at h
    | some p =>
      obtain ⟨x1, audios1⟩ := p
      cases hf : fill audios1 m with
      | none => simp [hm, hf] at h
      | some q =>
        simp [hm, hf] at h
        obtain ⟨st, st2, xs, h1, h2, h3, h4, h5⟩ :=
          ih m audios1 q.1 q.2 (by rw [hf]) (by omega)
        refine ⟨st, st2, xs, ?_, ?_, h3, h4, ?_⟩
        · rw [stateAt_succ, hm]
          simpa using h1
        · rw [h2]
          exact mixOnce_some_length hm
        · rw [← h.1]
          simpa using h5

lemma loop_next_preserves {a : AudioBuffer} (h : a.playhead < a.buffer.length) :
    ∃ x a1, a.loop_next = some (x, a1) ∧ a1.playhead < a1.buffer.length := by
  refine ⟨a.buffer.getD a.playhead 0, ⟨a.buffer, (a.playhead + 1) % a.buffer.length⟩,
    by simp [AudioBuffer.loop_next, h], ?_⟩
  exact Nat.mod_lt _ (by omega)

lemma mixOnce_total :
    ∀ audios : List AudioBuffer, (∀ a ∈ audios, a.playhead < a.buffer.length) →
      ∃ x st, mixOnce audios = some (x, st) ∧
        ∀ a ∈ st, a.playhead < a.buffer.length := by
  intro audios
  induction audios with
  | nil => intro _; exact ⟨0, [], rfl, by simp⟩
  | cons a rest ih =>
    intro hwf
    obtain ⟨x, a1, hx, ha1⟩ := loop_next_preserves (hwf a (by simp))
    obtain ⟨s, st, hs, hst⟩ := ih (fun b hb => hwf b (by simp [hb]))
    refine ⟨x + s, a1 :: st, ?_, ?_⟩
    · rw [mixOnce_cons, hx, hs]
      simp
    · intro b hb
      rcases List.mem_cons.mp hb with rfl | hb
      · exact ha1
      · exact hst b hb

lemma fill_total :
    ∀ (n : ℕ) (audios : List AudioBuffer),
      (∀ a ∈ audios, a.playhead < a.buffer.length) →
      ∃ out fin, fill audios n = some (out, fin) := by
  intro n
  induction n with
  | zero => intro audios _; exact ⟨[], audios, rfl⟩
  | succ n ih =>
    intro audios hwf
    obtain ⟨x, st, hx, hst⟩ := mixOnce_total audios hwf
    obtain ⟨out, fin, hout⟩ := ih st hst
    refine ⟨x :: out, fin, ?_⟩
    rw [fill_succ, hx]
    simp [hout]

/-- C1.  The callback fill loop: a Mixer owning zero tracks writes `0.0` to
every position of a block of any size; in general, a successful fill of a
block of `n` positions writes `n` samples, and the sample at position `i`
is the sum of one `loop_next` call taken from every owned track in the
state the tracks have reached at that position (one call per track, the
track count never changing); and when every owned track has its playhead
in bounds the fill of any block succeeds. -/
theorem fill_sums_all_tracks :
    (∀ n, fill [] n = some (List.replicate n 0, [])) ∧
    (∀ (audios : List AudioBuffer) (n : ℕ) (out : List ℚ) (fin : List AudioBuffer),
      fill audios n = some (out, fin) →
      out.length = n ∧
      ∀ i, i < n → ∃ (st st2 : List AudioBuffer) (xs : List ℚ),
        stateAt audios i = some st ∧ st.length = audios.length ∧
        stepAll st = some (xs, st2) ∧ xs.length = st.length ∧
        out.getD i 0 = xs.sum) ∧
    (∀ (audios : List AudioBuffer) (n : ℕ),
      (∀ a ∈ audios, a.playhead < a.buffer.length) →
      ∃ out fin, fill audios n = some (out, fin)) :=
  ⟨fill_nil,
   fun audios n out fin h =>
     ⟨fill_some_length n audios out fin h,
      fun i hi => fill_position i n audios out fin h hi⟩,
   fun audios n hwf => fill_total n audios hwf⟩

/-- Witness for C1: an empty Mixer fills a 3-block with zeros; a Mixer with
the single looping track `[1, -1/2]` fills a 4-block as
`[1, -1/2, 1, -1/2]` and each position is a per-track sum; the same Mixer
with its playhead in bounds always fills a 2-block. -/
theorem fill_sums_all_tracks_witness :
    fill [] 3 = some ([0, 0, 0], []) ∧
    (([(1 : ℚ), -1/2, 1, -1/2] : List ℚ).length = 4 ∧
      ∀ i, i < 4 → ∃ (st st2 : List AudioBuffer) (xs : List ℚ),
        stateAt [⟨[1, -1/2], 0⟩] i = some st ∧
        st.length = ([⟨[1, -1/2], 0⟩] : List AudioBuffer).length ∧
        stepAll st = some (xs, st2) ∧ xs.length = st.length ∧
        ([(1 : ℚ), -1/2, 1, -1/2] : List ℚ).getD i 0 = xs.sum) ∧
    ∃ out fin, fill [⟨[1, -1/2], 0⟩] 2 = some (out, fin) :=
  ⟨fill_sums_all_tracks.1 3,
   fill_sums_all_tracks.2.1 [⟨[1, -1/2], 0⟩] 4 [1, -1/2, 1, -1/2]
     [⟨[1, -1/2], 0⟩] (by norm_num [fill, mixOnce, AudioBuffer.loop_next]),
   fill_sums_all_tracks.2.2 [⟨[1, -1/2], 0⟩] 2 (by decide)⟩

/-! ## Determinism of the playback session -/

lemma fillCalls_cons (audios : List AudioBuffer) (info n : ℕ)
    (rest : List (ℕ × ℕ)) :
    fillCalls audios ((info, n) :: rest) =
      (fill audios n).bind (fun p =>
        (fillCalls p.2 rest).map (fun q => (p.1 ++ q.1, q.2))) := by
  cases h : fill audios n with
  | none => simp [fillCalls, output_data_fn, h]
  | some p =>
    cases h2 : fillCalls p.2 rest with
    | none => simp [fillCalls, output_data_fn, h, h2]
    | some q => simp [fillCalls, output_data_fn, h, h2]

/-- C8.  Two-run determinism: two Mixers over equal track lists, driven by
two call sequences whose block sizes agree position by position — the
`OutputCallbackInfo` stand-ins (the only wall-clock-dependent data the
callback receives) may differ arbitrarily — produce identical output
sample sequences and identical final track states.  The model has no other
input, so no randomness can enter. -/
theorem mixer_deterministic (t1 t2 : List AudioBuffer)
    (cs1 cs2 : List (ℕ × ℕ)) (ht : t1 = t2)
    (hb : cs1.map Prod.snd = cs2.map Prod.snd) :
    fillCalls t1 cs1 = fillCalls t2 cs2 := by
  subst ht
  induction cs1 generalizing t1 cs2 with
  | nil =>
    have h2 : cs2 = [] := by
      cases cs2 with
      | nil => rfl
      | cons c r => simp at hb
    rw [h2]
  | cons c rest ih =>
    obtain ⟨i, n⟩ := c
    cases cs2 with
    | nil => simp at hb
    | cons c2 rest2 =>
      obtain ⟨i2, n2⟩ := c2
      simp at hb
      obtain ⟨hn, hrest⟩ := hb
      subst hn
      rw [fillCalls_cons, fillCalls_cons]
      have hfun :
          (fun p : List ℚ × List AudioBuffer =>
            (fillCalls p.2 rest).map (fun q => (p.1 ++ q.1, q.2))) =
          (fun p : List ℚ × List AudioBuffer =>
            (fillCalls p.2 rest2).map (fun q => (p.1 ++ q.1, q.2))) := by
        funext p
        rw [ih p.2 rest2 hrest]
      rw [hfun]

/-- Witness for C8: the same single-track Mixer driven by two calls whose
block size is 2 but whose callback-info stand-ins differ (0 versus 99). -/
theorem mixer_deterministic_witness :
    fillCalls [⟨[1], 0⟩] [(0, 2)] = fillCalls [⟨[1], 0⟩] [(99, 2)] :=
  mixer_deterministic [⟨[1], 0⟩] [⟨[1], 0⟩] [(0, 2)] [(99, 2)] rfl rfl

/-! ## Decoding -/

lemma normalizeSample_bounds {x : ℤ} (h1 : -32768 ≤ x) (h2 : x ≤ 32767) :
    -1 ≤ normalizeSample x ∧ normalizeSample x ≤ 1 := by
  have hx1 : (-32768 : ℚ) ≤ (x : ℚ) := by exact_mod_cast h1
  have hx2 : (x : ℚ) ≤ 32767 := by exact_mod_cast h2
  unfold normalizeSample
  constructor
  · rw [le_div_iff₀ (by norm_num : (0 : ℚ) < 32768)]
    linarith
  · rw [div_le_one (by norm_num : (0 : ℚ) < 32768)]
    linarith

/-- C4 (amended).  A successfully constructed track holds exactly the
successfully decoded samples — as many as the reads that succeeded, which
can be fewer than the file's sample frames — each equal to `raw / 32768`
for its source 16-bit integer `raw`, hence inside `[-1, 1]`. -/
theorem decoded_track_samples (f : WavFile) (a : AudioBuffer)
    (h : AudioBuffer.new f = some a)
    (hi16 : ∀ x ∈ f.reads.filterMap id, -32768 ≤ x ∧ x ≤ 32767) :
    a.buffer = (f.reads.filterMap id).map normalizeSample ∧
    a.buffer.length = (f.reads.filterMap id).length ∧
    ∀ q ∈ a.buffer, -1 ≤ q ∧ q ≤ 1 := by
  unfold AudioBuffer.new at h
  cases hopen : f.openOk with
  | false => rw [hopen] at h; simp at h
  | true =>
    rw [hopen] at h
    simp at h
    subst h
    refine ⟨rfl, by simp, ?_⟩
    intro q hq
    simp only [List.mem_map] at hq
    obtain ⟨x, hx, rfl⟩ := hq
    exact normalizeSample_bounds (hi16 x hx).1 (hi16 x hx).2

/-- Witness for C4 (amended) on a one-sample file. -/
theorem decoded_track_samples_witness :
    AudioBuffer.new ⟨true, [some 100]⟩ = some ⟨[normalizeSample 100], 0⟩ ∧
    (([normalizeSample 100] : List ℚ) =
        (([some 100] : List (Option ℤ)).filterMap id).map normalizeSample ∧
      ([normalizeSample 100] : List ℚ).length =
        (([some 100] : List (Option ℤ)).filterMap id).length ∧
      ∀ q ∈ ([normalizeSample 100] : List ℚ), -1 ≤ q ∧ q ≤ 1) :=
  ⟨rfl, decoded_track_samples ⟨true, [some 100]⟩ ⟨[normalizeSample 100], 0⟩
    rfl (by decide)⟩

/-- C4 (counterexample).  A file that opens with two sample frames, the
second of which fails to read, is decoded into a usable track of length 1:
the length does not equal the number of PCM sample frames. -/
theorem decode_length_counterexample :
    (AudioBuffer.new ⟨true, [some 100, none]⟩).map (fun a => a.buffer.length) =
      some 1 ∧
    WavFile.numFrames ⟨true, [some 100, none]⟩ = 2 ∧ (1 : ℕ) ≠ 2 :=
  ⟨rfl, rfl, by decide⟩

/-- C5 (amended).  The decoder performs no zero-length check: whenever the
file opens and no read succeeds, the constructor returns a usable track
whose sample sequence is empty. -/
theorem zero_length_track_allowed (f : WavFile) (h1 : f.openOk = true)
    (h2 : f.reads.filterMap id = []) :
    AudioBuffer.new f = some ⟨[], 0⟩ := by
  simp [AudioBuffer.new, h1, h2]

/-- Witness for C5 (amended): a file that opens but whose single sample
read fails. -/
theorem zero_length_track_allowed_witness :
    (⟨true, [none]⟩ : WavFile).openOk = true ∧
    (⟨true, [none]⟩ : WavFile).reads.filterMap id = [] ∧
    AudioBuffer.new ⟨true, [none]⟩ = some ⟨[], 0⟩ :=
  ⟨rfl, rfl, zero_length_track_allowed ⟨true, [none]⟩ rfl rfl⟩

/-- C5 (counterexample).  A file that opens with no samples at all is
decoded into a usable zero-length track — no decode error is raised. -/
theorem zero_length_track_counterexample :
    AudioBuffer.new ⟨true, []⟩ = some ⟨[], 0⟩ ∧ ([] : List ℚ).length = 0 :=
  ⟨rfl, rfl⟩

/-- C6 (amended).  A file that fails to open makes the constructor panic
(`unwrap`), so no sequence is returned; but once the file opens, every
failed sample read is silently skipped and the remaining samples are kept,
so a malformed file can yield a partial sequence instead of an error. -/
theorem decode_error_behavior (f : WavFile) :
    (f.openOk = false → AudioBuffer.new f = none) ∧
    (f.openOk = true →
      AudioBuffer.new f = some ⟨(f.reads.filterMap id).map normalizeSample, 0⟩) := by
  constructor
  · intro h
    simp [AudioBuffer.new, h]
  · intro h
    simp [AudioBuffer.new, h]

/-- Witness for C6 (amended): an unopenable file aborts with no sequence;
an opened file with a failed middle read keeps the two good samples. -/
theorem decode_error_behavior_witness :
    AudioBuffer.new ⟨false, [some 5]⟩ = none ∧
    AudioBuffer.new ⟨true, [some 100, none, some 200]⟩ =
      some ⟨([100, 200] : List ℤ).map normalizeSample, 0⟩ :=
  ⟨(decode_error_behavior ⟨false, [some 5]⟩).1 rfl,
   (decode_error_behavior ⟨true, [some 100, none, some 200]⟩).2 rfl⟩

/-- C6 (counterexample).  A malformed file — it opens, holds three sample
slots, and the middle read fails — still returns a sequence, and that
sequence is partial: 2 samples out of 3 slots, built from the readable
samples with the bad one silently skipped. -/
theorem truncated_decode_counterexample :
    (AudioBuffer.new ⟨true, [some 100, none, some 200]⟩).isSome = true ∧
    (AudioBuffer.new ⟨true, [some 100, none, some 200]⟩).map
      (fun a => a.buffer.length) = some 2 ∧
    WavFile.numFrames ⟨true, [some 100, none, some 200]⟩ = 3 :=
  ⟨rfl, rfl, rfl⟩
